import Mathlib

/-!
Verification of the lambda-calculus term engine of the `lambda` repository.

The development shallowly embeds the two source files the claims refer to:

* `src/plus/complete_beta_reduction.py` (`LambdaParser`, `BetaReducer`),
  embedded in namespace `Plus`;
* `src/lambda_visualizer_backend/utils/correct_lambda_parser.py`
  (`CorrectLambdaParser`, `CorrectBetaReducer`), embedded in namespace `CV`.

Both files use the same immutable term representation (`Variable`, `Lambda`,
`Application`), embedded once as `Engine.Term`.  Character classes
(`str.isalpha`, `str.isalnum`, `str.isdigit`) are modelled with Lean's ASCII
character predicates; the spec restricts identifiers to letter runs, so all
inputs of interest are ASCII.  Python's stateful recursion is embedded with
explicit state passing, and the recursions of `_substitute` (which are not
structural because of the alpha-renaming branch) are embedded with an explicit
fuel argument that is always instantiated with the size of the term, which is
proved sufficient.
-/

namespace Engine

/-- Terms of the engine: `Variable(name)`, `Lambda(parameter, body)`,
`Application(function, argument)`, as defined in both source files. -/
inductive Term : Type where
  | var (name : String)
  | lam (param : String) (body : Term)
  | app (fn : Term) (arg : Term)
deriving DecidableEq

namespace Term

/-- Number of nodes of a term; the recursion measure used for the
embedding of `_substitute`. -/
def size : Term → Nat
  | var _ => 1
  | lam _ b => size b + 1
  | app f a => size f + size a + 1

theorem size_pos (t : Term) : 0 < size t := by
  cases t <;> simp [size]

/-- Free variables, as computed by `BetaReducer.free_variables` and
`CorrectBetaReducer.free_variables`. -/
def freeVars : Term → Finset String
  | var n => {n}
  | lam p b => freeVars b \ {p}
  | app f a => freeVars f ∪ freeVars a

/-- Bound variables, as computed by `bound_variables` in both reducers. -/
def boundVars : Term → Finset String
  | var _ => ∅
  | lam p b => {p} ∪ boundVars b
  | app f a => boundVars f ∪ boundVars a

end Term

/-! ### Decimal printing of naturals

Python's f-string `f"x{counter}"` / `f"v{counter}"` renders the counter in
decimal.  We embed decimal rendering directly (fuel-based so that it reduces
definitionally) and prove it injective, which is what the freshness arguments
need. -/

/-- Decimal digit character of `n` (used with `n < 10`). -/
def digitChar : Nat → Char
  | 0 => '0' | 1 => '1' | 2 => '2' | 3 => '3' | 4 => '4'
  | 5 => '5' | 6 => '6' | 7 => '7' | 8 => '8' | _ => '9'

/-- Numeric value of a digit character. -/
def charDigit (c : Char) : Nat := c.toNat - 48

/-- Decimal digits of `n`, most significant first; `fuel` bounds the
recursion depth and any `fuel > n` is sufficient. -/
def natDigitsF : Nat → Nat → List Char
  | 0, _ => []
  | fuel + 1, n =>
    if n < 10 then [digitChar n]
    else natDigitsF fuel (n / 10) ++ [digitChar (n % 10)]

/-- Decimal string of a natural number, as Python's `str(n)`. -/
def natStr (n : Nat) : String := String.mk (natDigitsF (n + 1) n)

/-- Value of a digit list read back as a number. -/
def digitsVal (l : List Char) : Nat := l.foldl (fun acc c => acc * 10 + charDigit c) 0

theorem digitsVal_append_digit (l : List Char) (c : Char) :
    digitsVal (l ++ [c]) = digitsVal l * 10 + charDigit c := by
  simp [digitsVal, List.foldl_append]

theorem charDigit_digitChar {n : Nat} (h : n < 10) : charDigit (digitChar n) = n := by
  interval_cases n <;> decide

theorem digitChar_isDigit (n : Nat) : (digitChar n).isDigit = true := by
  unfold digitChar
  split <;> decide

theorem digitsVal_natDigitsF : ∀ fuel n, n < fuel → digitsVal (natDigitsF fuel n) = n := by
  intro fuel
  induction fuel with
  | zero => intro n h; omega
  | succ fuel ih =>
    intro n h
    by_cases h10 : n < 10
    · simp [natDigitsF, h10, digitsVal, charDigit_digitChar h10]
    · have hlt : n / 10 < fuel := by
        have : n / 10 < n := Nat.div_lt_self (by omega) (by omega)
        omega
      have hmod : n % 10 < 10 := Nat.mod_lt _ (by omega)
      simp only [natDigitsF, h10, if_false, digitsVal_append_digit, ih _ hlt,
        charDigit_digitChar hmod]
      omega

theorem natStr_inj : Function.Injective natStr := by
  intro a b h
  have hd : natDigitsF (a + 1) a = natDigitsF (b + 1) b := congrArg String.data h
  have ha := digitsVal_natDigitsF (a + 1) a (by omega)
  have hb := digitsVal_natDigitsF (b + 1) b (by omega)
  rw [hd, hb] at ha
  omega

theorem natDigitsF_isDigit : ∀ fuel n c, c ∈ natDigitsF fuel n → c.isDigit = true := by
  intro fuel
  induction fuel with
  | zero => intro n c h; simp [natDigitsF] at h
  | succ fuel ih =>
    intro n c h
    by_cases h10 : n < 10
    · simp [natDigitsF, h10] at h
      simp [h, digitChar_isDigit]
    · simp [natDigitsF, h10] at h
      rcases h with h | h
      · exact ih _ _ h
      · simp [h, digitChar_isDigit]

theorem natStr_isDigit (n : Nat) (c : Char) (h : c ∈ (natStr n).data) :
    c.isDigit = true := natDigitsF_isDigit _ _ _ h

/-- The four members of the `ReductionStrategy` enum, defined identically in
both source files. -/
inductive Strategy : Type where
  | normalOrder
  | applicativeOrder
  | callByName
  | callByValue
deriving DecidableEq

/-- Removal of spaces, `str.replace(' ', '')`. -/
def stripSpaces (s : String) : String := String.mk (s.data.filter (fun c => !(c == ' ')))

/-- Well-formed identifier as actually produced by the engine: a letter
followed by letters, digits or underscores. -/
def goodNameB (s : String) : Bool :=
  match s.data with
  | [] => false
  | c :: rest => c.isAlpha && rest.all (fun d => d.isAlphanum || d == '_')

/-- Every variable name and every binder name of the term is a well-formed
identifier. -/
def goodTermB : Term → Bool
  | .var n => goodNameB n
  | .lam p b => goodNameB p && goodTermB b
  | .app f a => goodTermB f && goodTermB a

/-- The predicate claimed by the spec: a non-empty identifier consisting of
letters only. -/
def lettersOnlyB (s : String) : Bool := !(s.data.isEmpty) && s.data.all Char.isAlpha

end Engine

namespace Plus

open Engine Engine.Term

/-- Alphabet scanned by `BetaReducer._generate_fresh_variable`: the single
letters tried before falling back to numbered names. -/
def letterNames : List String :=
  ["a", "b", "c", "d", "e", "f", "g", "h", "i", "j", "k", "l", "m",
   "n", "o", "p", "q", "r", "s", "t", "u", "v", "w", "x", "y", "z"]

/-- Name `x{n}` used by the numbered fallback of
`BetaReducer._generate_fresh_variable`. -/
def numName (n : Nat) : String := "x" ++ natStr n

theorem numName_inj : Function.Injective numName := by
  intro a b h
  apply natStr_inj
  have hd : 'x' :: (natStr a).data = 'x' :: (natStr b).data := congrArg String.data h
  have hdata : (natStr a).data = (natStr b).data := by injection hd
  exact String.ext hdata

theorem exists_numName_fresh (avoid : Finset String) : ∃ n, numName n ∉ avoid := by
  by_contra hall
  push_neg at hall
  have hinj : Set.InjOn numName (Finset.range (avoid.card + 1)) := by
    intro a _ b _ hab
    exact numName_inj hab
  have hsub : (Finset.range (avoid.card + 1)).image numName ⊆ avoid := by
    intro s hs
    simp only [Finset.mem_image] at hs
    obtain ⟨n, _, rfl⟩ := hs
    exact hall n
  have hcard := Finset.card_le_card hsub
  rw [Finset.card_image_of_injOn hinj, Finset.card_range] at hcard
  omega

/-- `BetaReducer._generate_fresh_variable`: try the single letters
`a`–`z` in order, then the numbered names `x0`, `x1`, … . -/
def freshVar (avoid : Finset String) : String :=
  match letterNames.find? (fun s => decide (s ∉ avoid)) with
  | some s => s
  | none => numName (Nat.find (exists_numName_fresh avoid))

theorem freshVar_not_mem (avoid : Finset String) : freshVar avoid ∉ avoid := by
  unfold freshVar
  cases hfind : letterNames.find? (fun s => decide (s ∉ avoid)) with
  | some s =>
    have := List.find?_some hfind
    simpa using this
  | none =>
    exact Nat.find_spec (exists_numName_fresh avoid)

/-- Fuel-based embedding of `BetaReducer._substitute`.  The fuel only
majorizes the size of the term being substituted into; `substF (size t) t x r`
is the function the source computes, as proved by the lemmas below. -/
def substF : Nat → Term → String → Term → Term
  | 0, t, _, _ => t
  | fuel + 1, t, x, r =>
    match t with
    | .var v => if v = x then r else .var v
    | .app f a => .app (substF fuel f x r) (substF fuel a x r)
    | .lam p b =>
      if p = x then .lam p b
      else if p ∈ freeVars r then
        let c := freshVar (freeVars b ∪ freeVars r ∪ {x})
        .lam c (substF fuel (substF fuel b p (.var c)) x r)
      else .lam p (substF fuel b x r)

theorem substF_size_var :
    ∀ fuel t, size t ≤ fuel → ∀ x n, size (substF fuel t x (.var n)) = size t := by
  intro fuel
  induction fuel with
  | zero => intro t h; have := size_pos t; omega
  | succ fuel ih =>
    intro t h x n
    match t with
    | .var v =>
      simp only [substF]
      split <;> simp [size]
    | .app f a =>
      simp only [size] at h
      have hf := ih f (by omega) x n
      have ha := ih a (by omega) x n
      simp [substF, size, hf, ha]
    | .lam p b =>
      simp only [size] at h
      simp only [substF]
      split
      · rfl
      · split
        · have h1 := ih b (by omega) p (freshVar (freeVars b ∪ freeVars (Term.var n) ∪ {x}))
          have h2 := ih (substF fuel b p
              (.var (freshVar (freeVars b ∪ freeVars (Term.var n) ∪ {x}))))
            (by omega) x n
          simp only [size]
          omega
        · have h1 := ih b (by omega) x n
          simp [size, h1]

theorem substF_congr :
    ∀ fuel fuel' t, size t ≤ fuel → size t ≤ fuel' →
      ∀ x r, substF fuel t x r = substF fuel' t x r := by
  intro fuel
  induction fuel with
  | zero => intro fuel' t h; have := size_pos t; omega
  | succ fuel ih =>
    intro fuel' t h h' x r
    match fuel', t with
    | 0, t => have := size_pos t; omega
    | fuel' + 1, .var v => simp [substF]
    | fuel' + 1, .app f a =>
      simp only [size] at h h'
      simp [substF, ih fuel' f (by omega) (by omega), ih fuel' a (by omega) (by omega)]
    | fuel' + 1, .lam p b =>
      simp only [size] at h h'
      simp only [substF]
      split
      · rfl
      · split
        · have hb : substF fuel b p (.var (freshVar (freeVars b ∪ freeVars r ∪ {x}))) =
              substF fuel' b p (.var (freshVar (freeVars b ∪ freeVars r ∪ {x}))) :=
            ih fuel' b (by omega) (by omega) _ _
          have hsz := substF_size_var fuel b (by omega) p
            (freshVar (freeVars b ∪ freeVars r ∪ {x}))
          rw [hb] at hsz ⊢
          rw [ih fuel' _ (by omega) (by omega) x r]
        · rw [ih fuel' b (by omega) (by omega) x r]

/-- `BetaReducer._substitute(term, var, replacement)`. -/
def substitute (t : Term) (x : String) (r : Term) : Term := substF (size t) t x r

theorem substitute_var (v x : String) (r : Term) :
    substitute (.var v) x r = if v = x then r else .var v := rfl

theorem substitute_app (f a : Term) (x : String) (r : Term) :
    substitute (.app f a) x r = .app (substitute f x r) (substitute a x r) := by
  unfold substitute
  simp only [size, substF]
  rw [substF_congr (size f + size a) (size f) f (by omega) (by omega),
    substF_congr (size f + size a) (size a) a (by omega) (by omega)]

theorem substitute_lam_shadow (p : String) (b : Term) (r : Term) :
    substitute (.lam p b) p r = .lam p b := by
  unfold substitute
  simp [size, substF]

theorem substitute_lam_free (p : String) (b : Term) (x : String) (r : Term)
    (hpx : p ≠ x) (hpr : p ∉ freeVars r) :
    substitute (.lam p b) x r = .lam p (substitute b x r) := by
  unfold substitute
  simp [size, substF, hpx, hpr]

theorem substitute_lam_capture (p : String) (b : Term) (x : String) (r : Term)
    (hpx : p ≠ x) (hpr : p ∈ freeVars r) :
    substitute (.lam p b) x r =
      .lam (freshVar (freeVars b ∪ freeVars r ∪ {x}))
        (substitute
          (substitute b p (.var (freshVar (freeVars b ∪ freeVars r ∪ {x})))) x r) := by
  unfold substitute
  simp only [size, substF, hpx, hpr, if_false, if_true, if_neg, if_pos]
  have hsz := substF_size_var (size b) b (by omega) p
    (freshVar (freeVars b ∪ freeVars r ∪ {x}))
  rw [substF_congr (size b) (size (substF (size b) b p
      (.var (freshVar (freeVars b ∪ freeVars r ∪ {x}))))) _ (by omega) (by omega) x r]

theorem substitute_size_var (t : Term) (x n : String) :
    size (substitute t x (.var n)) = size t :=
  substF_size_var (size t) t (by omega) x n

theorem freshVar_avoid_facts (b r : Term) (x : String) :
    freshVar (freeVars b ∪ freeVars r ∪ {x}) ∉ freeVars b ∧
    freshVar (freeVars b ∪ freeVars r ∪ {x}) ∉ freeVars r ∧
    freshVar (freeVars b ∪ freeVars r ∪ {x}) ≠ x := by
  have h := freshVar_not_mem (freeVars b ∪ freeVars r ∪ {x})
  simp only [Finset.mem_union, Finset.mem_singleton, not_or] at h
  exact ⟨h.1.1, h.1.2, h.2⟩

/-- Free variables of `BetaReducer._substitute`: the textbook characterization
of capture-avoiding substitution at the level of free-variable sets. -/
theorem substitute_freeVars_aux :
    ∀ n t, size t ≤ n → ∀ x r,
      freeVars (substitute t x r) =
        if x ∈ freeVars t then (freeVars t \ {x}) ∪ freeVars r else freeVars t := by
  intro n
  induction n with
  | zero => intro t h; have := size_pos t; omega
  | succ n ih =>
    intro t h x r
    match t with
    | .var v =>
      rw [substitute_var]
      by_cases hvx : v = x
      · subst hvx
        simp [freeVars]
      · simp [freeVars, hvx, Ne.symm hvx]
    | .app f a =>
      simp only [size] at h
      rw [substitute_app]
      have hf := ih f (by omega) x r
      have ha := ih a (by omega) x r
      simp only [freeVars, hf, ha]
      by_cases hxf : x ∈ freeVars f <;> by_cases hxa : x ∈ freeVars a
      · rw [if_pos hxf, if_pos hxa, if_pos (Finset.mem_union_left _ hxf)]
        ext v
        simp only [Finset.mem_union, Finset.mem_sdiff, Finset.mem_singleton]
        tauto
      · rw [if_pos hxf, if_neg hxa, if_pos (Finset.mem_union_left _ hxf)]
        ext v
        simp only [Finset.mem_union, Finset.mem_sdiff, Finset.mem_singleton]
        constructor
        · rintro ((⟨hv, hvx⟩ | hv) | hv)
          · tauto
          · tauto
          · by_cases hvx : v = x
            · subst hvx
              exact absurd hv hxa
            · tauto
        · tauto
      · rw [if_neg hxf, if_pos hxa, if_pos (Finset.mem_union_right _ hxa)]
        ext v
        simp only [Finset.mem_union, Finset.mem_sdiff, Finset.mem_singleton]
        constructor
        · rintro (hv | (⟨hv, hvx⟩ | hv))
          · by_cases hvx : v = x
            · subst hvx
              exact absurd hv hxf
            · tauto
          · tauto
          · tauto
        · tauto
      · rw [if_neg hxf, if_neg hxa,
          if_neg (by simp only [Finset.mem_union]; tauto)]
    | .lam p b =>
      simp only [size] at h
      by_cases hpx : p = x
      · subst hpx
        rw [substitute_lam_shadow]
        have : p ∉ freeVars (Term.lam p b) := by
          simp [freeVars]
        simp [this]
      · by_cases hpr : p ∈ freeVars r
        · rw [substitute_lam_capture p b x r hpx hpr]
          obtain ⟨hcb, hcr, hcx⟩ := freshVar_avoid_facts b r x
          set c := freshVar (freeVars b ∪ freeVars r ∪ {x}) with hc
          have hcp : c ≠ p := fun hcontra => hcr (hcontra ▸ hpr)
          have hrb := ih b (by omega) p (.var c)
          set rb := substitute b p (.var c) with hrbdef
          have hszrb : size rb = size b := substitute_size_var b p c
          have hnb := ih rb (by omega) x r
          simp only [freeVars] at hrb
          by_cases hpb : p ∈ freeVars b
          · rw [if_pos hpb] at hrb
            by_cases hxb : x ∈ freeVars b
            · have hxrb : x ∈ freeVars rb := by
                rw [hrb]
                simp only [Finset.mem_union, Finset.mem_sdiff, Finset.mem_singleton]
                exact Or.inl ⟨hxb, fun hxp => hpx hxp.symm⟩
              rw [if_pos hxrb] at hnb
              have hgoal : x ∈ freeVars (Term.lam p b) := by
                simp only [freeVars, Finset.mem_sdiff, Finset.mem_singleton]
                exact ⟨hxb, fun hxp => hpx hxp.symm⟩
              rw [if_pos hgoal]
              simp only [freeVars, hnb, hrb]
              ext v
              simp only [Finset.mem_union, Finset.mem_sdiff, Finset.mem_singleton]
              constructor
              · rintro ⟨(⟨(⟨hv, hvp⟩ | hv), hvx⟩ | hv), hvc⟩
                · tauto
                · exact absurd hv hvc
                · tauto
              · rintro (⟨⟨hv, hvp⟩, hvx⟩ | hv)
                · refine ⟨Or.inl ⟨Or.inl ⟨hv, hvp⟩, hvx⟩, ?_⟩
                  intro hvc
                  exact hcb (hvc ▸ hv)
                · refine ⟨Or.inr hv, ?_⟩
                  intro hvc
                  exact hcr (hvc ▸ hv)
            · have hxrb : x ∉ freeVars rb := by
                rw [hrb]
                simp only [Finset.mem_union, Finset.mem_sdiff, Finset.mem_singleton]
                push_neg
                exact ⟨fun hv => absurd hv hxb, fun hxc => hcx hxc.symm⟩
              rw [if_neg hxrb] at hnb
              have hgoal : x ∉ freeVars (Term.lam p b) := by
                simp only [freeVars, Finset.mem_sdiff, Finset.mem_singleton]
                push_neg
                intro hv
                exact absurd hv hxb
              rw [if_neg hgoal]
              simp only [freeVars, hnb, hrb]
              ext v
              simp only [Finset.mem_union, Finset.mem_sdiff, Finset.mem_singleton]
              constructor
              · rintro ⟨(⟨hv, hvp⟩ | hv), hvc⟩
                · tauto
                · exact absurd hv hvc
              · rintro ⟨hv, hvp⟩
                refine ⟨Or.inl ⟨hv, hvp⟩, ?_⟩
                intro hvc
                exact hcb (hvc ▸ hv)
          · rw [if_neg hpb] at hrb
            by_cases hxb : x ∈ freeVars b
            · have hxrb : x ∈ freeVars rb := by
                rw [hrb]; exact hxb
              rw [if_pos hxrb] at hnb
              have hgoal : x ∈ freeVars (Term.lam p b) := by
                simp only [freeVars, Finset.mem_sdiff, Finset.mem_singleton]
                exact ⟨hxb, fun hxp => hpx hxp.symm⟩
              rw [if_pos hgoal]
              simp only [freeVars, hnb, hrb]
              ext v
              simp only [Finset.mem_union, Finset.mem_sdiff, Finset.mem_singleton]
              constructor
              · rintro ⟨(⟨hv, hvx⟩ | hv), hvc⟩
                · refine Or.inl ⟨⟨hv, ?_⟩, hvx⟩
                  intro hvp
                  exact hpb (hvp ▸ hv)
                · tauto
              · rintro (⟨⟨hv, hvp⟩, hvx⟩ | hv)
                · refine ⟨Or.inl ⟨hv, hvx⟩, ?_⟩
                  intro hvc
                  exact hcb (hvc ▸ hv)
                · refine ⟨Or.inr hv, ?_⟩
                  intro hvc
                  exact hcr (hvc ▸ hv)
            · have hxrb : x ∉ freeVars rb := by
                rw [hrb]; exact hxb
              rw [if_neg hxrb] at hnb
              have hgoal : x ∉ freeVars (Term.lam p b) := by
                simp only [freeVars, Finset.mem_sdiff, Finset.mem_singleton]
                push_neg
                intro hv
                exact absurd hv hxb
              rw [if_neg hgoal]
              simp only [freeVars, hnb, hrb]
              ext v
              simp only [Finset.mem_sdiff, Finset.mem_singleton]
              constructor
              · rintro ⟨hv, hvc⟩
                refine ⟨hv, ?_⟩
                intro hvp
                exact hpb (hvp ▸ hv)
              · rintro ⟨hv, hvp⟩
                refine ⟨hv, ?_⟩
                intro hvc
                exact hcb (hvc ▸ hv)
        · rw [substitute_lam_free p b x r hpx hpr]
          have hb := ih b (by omega) x r
          simp only [freeVars, hb]
          by_cases hxb : x ∈ freeVars b
          · have hgoal : x ∈ freeVars b \ {p} := by
              simp only [Finset.mem_sdiff, Finset.mem_singleton]
              exact ⟨hxb, fun hxp => hpx hxp.symm⟩
            rw [if_pos hxb, if_pos hgoal]
            ext v
            simp only [Finset.mem_union, Finset.mem_sdiff, Finset.mem_singleton]
            constructor
            · rintro ⟨(⟨hv, hvx⟩ | hv), hvp⟩ <;> tauto
            · rintro (⟨⟨hv, hvp⟩, hvx⟩ | hv)
              · tauto
              · refine ⟨Or.inr hv, ?_⟩
                intro hvp
                exact hpr (hvp ▸ hv)
          · have hgoal : x ∉ freeVars b \ {p} := by
              simp only [Finset.mem_sdiff, Finset.mem_singleton]
              push_neg
              intro hv
              exact absurd hv hxb
            rw [if_neg hxb, if_neg hgoal]

/-- Free-variable characterization of `substitute` with the size recursion
discharged. -/
theorem substitute_freeVars (t : Term) (x : String) (r : Term) :
    freeVars (substitute t x r) =
      if x ∈ freeVars t then (freeVars t \ {x}) ∪ freeVars r else freeVars t :=
  substitute_freeVars_aux (size t) t (by omega) x r

theorem substitute_freeVars_subset (t : Term) (x : String) (r : Term) :
    freeVars (substitute t x r) ⊆ (freeVars t \ {x}) ∪ freeVars r := by
  rw [substitute_freeVars]
  split
  · exact subset_rfl
  · intro v hv
    simp only [Finset.mem_union, Finset.mem_sdiff, Finset.mem_singleton]
    refine Or.inl ⟨hv, ?_⟩
    intro hvx
    subst hvx
    exact absurd hv (by assumption)

theorem substitute_freeVars_superset (t : Term) (x : String) (r : Term)
    (hx : x ∈ freeVars t) : freeVars r ⊆ freeVars (substitute t x r) := by
  rw [substitute_freeVars, if_pos hx]
  exact Finset.subset_union_right

/-! ### Canonical printing (`__str__` of the three node classes) -/

/-- Canonical print: `Variable.__str__` returns the name, `Lambda.__str__`
returns `λ{param}.{body}`, and `Application.__str__` parenthesizes the
function iff it is an `Application` and the argument iff it is a `Lambda` or
an `Application`. -/
def printPlus : Term → String
  | .var n => n
  | .lam p b => "λ" ++ p ++ "." ++ printPlus b
  | .app f a =>
    (match f with
     | .app _ _ => "(" ++ printPlus f ++ ")"
     | _ => printPlus f) ++ " " ++
    (match a with
     | .lam _ _ => "(" ++ printPlus a ++ ")"
     | .app _ _ => "(" ++ printPlus a ++ ")"
     | _ => printPlus a)

/-! ### `LambdaParser` (recursive descent over the space-stripped text)

The parser removes every space from the input up front and then walks the
character list.  The mutually recursive procedures are embedded with a fuel
argument; `parsePlus` hands them more fuel than the recursion can consume, so
the fuel-exhaustion branch is unreachable on every input. -/

/-- Characters allowed after the first letter of a name:
`isalnum()` or an underscore. -/
def isVarChar (c : Char) : Bool := c.isAlphanum || c == '_'

/-- `LambdaParser._parse_variable_name`: a letter followed by a maximal run
of alphanumerics and underscores. -/
def pVarName : List Char → Except String (String × List Char)
  | [] => .error "Expected variable name"
  | c :: rest =>
    if c.isAlpha then
      .ok (String.mk (c :: rest.takeWhile isVarChar), rest.dropWhile isVarChar)
    else .error "Expected variable name"

mutual

/-- `LambdaParser._parse_term`. -/
def pTerm : Nat → List Char → Except String (Term × List Char)
  | 0, _ => .error "out of fuel"
  | fuel + 1, s => pApp fuel s

/-- `LambdaParser._parse_application` (left-associative). -/
def pApp : Nat → List Char → Except String (Term × List Char)
  | 0, _ => .error "out of fuel"
  | fuel + 1, s =>
    match pAtom fuel s with
    | .error e => .error e
    | .ok (left, s1) => pAppLoop fuel left s1

/-- The `while` loop inside `_parse_application`: keep absorbing atoms until
the end of the text or a closing parenthesis. -/
def pAppLoop : Nat → Term → List Char → Except String (Term × List Char)
  | 0, _, _ => .error "out of fuel"
  | fuel + 1, left, s =>
    match s with
    | [] => .ok (left, [])
    | c :: rest =>
      if c = ')' then .ok (left, c :: rest)
      else
        match pAtom fuel (c :: rest) with
        | .error e => .error e
        | .ok (right, s1) => pAppLoop fuel (.app left right) s1

/-- `LambdaParser._parse_atom`. -/
def pAtom : Nat → List Char → Except String (Term × List Char)
  | 0, _ => .error "out of fuel"
  | fuel + 1, s =>
    match s with
    | [] => .error "Unexpected end of input"
    | c :: rest =>
      if c = 'λ' ∨ c = '\\' then pLam fuel rest
      else if c = '(' then
        match pTerm fuel rest with
        | .error e => .error e
        | .ok (t, s1) =>
          match s1 with
          | c1 :: s2 =>
            if c1 = ')' then .ok (t, s2) else .error "Expected closing parenthesis"
          | [] => .error "Expected closing parenthesis"
      else if c.isAlpha then
        match pVarName (c :: rest) with
        | .error e => .error e
        | .ok (nm, s1) => .ok (.var nm, s1)
      else .error "Unexpected character"

/-- `LambdaParser._parse_lambda` (the abstraction marker has already been
consumed by `pAtom`). -/
def pLam : Nat → List Char → Except String (Term × List Char)
  | 0, _ => .error "out of fuel"
  | fuel + 1, s =>
    match pVarName s with
    | .error _ => .error "Expected parameter after λ"
    | .ok (pn, s1) =>
      match s1 with
      | c :: s2 =>
        if c = '.' then
          match pTerm fuel s2 with
          | .error e => .error e
          | .ok (body, s3) => .ok (.lam pn body, s3)
        else .error "Expected dot after lambda parameter"
      | [] => .error "Expected dot after lambda parameter"

end

/-- `LambdaParser.parse`: strip all spaces, parse a term, and require the
whole text to be consumed. -/
def parsePlus (input : String) : Except String Term :=
  let text := input.data.filter (fun c => !(c == ' '))
  match pTerm (4 * text.length + 16) text with
  | .error e => .error e
  | .ok (t, rest) =>
    if rest = [] then .ok t else .error "Unexpected character"

/-! ### `BetaReducer`: redex search, single reduction, driver loop -/

/-- Directions of the paths recorded by the redex finders
(`"function"`, `"argument"`, `"body"`). -/
inductive Dir : Type where
  | fn
  | arg
  | body
deriving DecidableEq

/-- The data of the dictionary returned by the redex finders: the path to the
redex, the `Lambda`'s parameter and body, and the argument. -/
structure Redex : Type where
  path : List Dir
  param : String
  rbody : Term
  argument : Term
deriving DecidableEq

/-- `BetaReducer._find_leftmost_outermost_redex`: test the current
application before searching the function, then the argument, then (for
abstractions) the body. -/
def findLO : Term → Option Redex
  | .var _ => none
  | .lam _ b => (findLO b).map (fun r => ⟨.body :: r.path, r.param, r.rbody, r.argument⟩)
  | .app f a =>
    match f with
    | .lam p b => some ⟨[], p, b, a⟩
    | _ =>
      match findLO f with
      | some r => some ⟨.fn :: r.path, r.param, r.rbody, r.argument⟩
      | none => (findLO a).map (fun r => ⟨.arg :: r.path, r.param, r.rbody, r.argument⟩)

/-- `BetaReducer._find_leftmost_innermost_redex`: search the function and the
argument before testing the current application. -/
def findLI : Term → Option Redex
  | .var _ => none
  | .lam _ b => (findLI b).map (fun r => ⟨.body :: r.path, r.param, r.rbody, r.argument⟩)
  | .app f a =>
    match findLI f with
    | some r => some ⟨.fn :: r.path, r.param, r.rbody, r.argument⟩
    | none =>
      match findLI a with
      | some r => some ⟨.arg :: r.path, r.param, r.rbody, r.argument⟩
      | none =>
        match f with
        | .lam p b => some ⟨[], p, b, a⟩
        | _ => none

/-- `BetaReducer._find_redex`: normal order and the two unimplemented
strategies use the leftmost-outermost finder; applicative order uses the
leftmost-innermost finder. -/
def findRedex : Strategy → Term → Option Redex
  | .normalOrder, t => findLO t
  | .applicativeOrder, t => findLI t
  | .callByName, t => findLO t
  | .callByValue, t => findLO t

/-- Sub-term of `t` at a path (specification-side helper used to state what
the finders return). -/
def subtermAt : Term → List Dir → Option Term
  | t, [] => some t
  | .app f _, .fn :: p => subtermAt f p
  | .app _ a, .arg :: p => subtermAt a p
  | .lam _ b, .body :: p => subtermAt b p
  | _, _ :: _ => none

/-- `BetaReducer._replace_at_path` with the constant replacer that
`_reduce_redex` passes to it; a path that does not match the term shape
returns the term unchanged, as in the source. -/
def replaceAtPath : Term → List Dir → Term → Term
  | _, [], new => new
  | .app f a, .fn :: p, new => .app (replaceAtPath f p new) a
  | .app f a, .arg :: p, new => .app f (replaceAtPath a p new)
  | .lam q b, .body :: p, new => .lam q (replaceAtPath b p new)
  | t, _ :: _, _ => t

/-- `BetaReducer._reduce_redex`: beta-contract the recorded redex, either at
the root or at the recorded path; the contraction itself is
`_perform_beta_reduction`, i.e. `substitute(body, parameter, argument)`. -/
def reduceRedex (t : Term) (r : Redex) : Term :=
  if r.path = [] then substitute r.rbody r.param r.argument
  else replaceAtPath t r.path (substitute r.rbody r.param r.argument)

/-- Stagnation test of `BetaReducer.reduce`: the printed forms of the last
three recorded snapshots are all identical. -/
def lastThreeStagnant (tr : List (Nat × Term)) : Bool :=
  match tr.reverse with
  | a :: b :: c :: _ =>
    printPlus a.2 == printPlus b.2 && printPlus b.2 == printPlus c.2
  | _ => false

/-- The `while` loop of `BetaReducer.reduce`.  `fuel` is `max_steps`
minus the steps already taken; the trace accumulates `(step, term)`
snapshots (the source stores the printed string of each snapshot, which is
`printPlus` of the recorded term). -/
def reduceAux (strat : Strategy) : Nat → Term → Nat → List (Nat × Term) →
    Term × Nat × List (Nat × Term)
  | 0, cur, sc, tr => (cur, sc, tr)
  | fuel + 1, cur, sc, tr =>
    match findRedex strat cur with
    | none => (cur, sc, tr)
    | some r =>
      let newTerm := reduceRedex cur r
      let tr' := tr ++ [(sc + 1, newTerm)]
      if 2 < sc + 1 ∧ lastThreeStagnant tr' = true then (newTerm, sc + 1, tr')
      else reduceAux strat fuel newTerm (sc + 1) tr'

/-- The dictionary returned by `BetaReducer.reduce` (the fields the claims
are about; the trace stores the recorded snapshots as terms, whose printed
strings are what the source records). -/
structure ReductionResult : Type where
  original : String
  final : String
  isNormalForm : Bool
  stepsTaken : Nat
  maxStepsReached : Bool
  strategy : Strategy
  trace : List (Nat × Term)
deriving DecidableEq

/-- `BetaReducer.reduce(term, max_steps)` for a reducer constructed with the
given strategy. -/
def reduce (strat : Strategy) (t : Term) (maxSteps : Nat) : ReductionResult :=
  let res := reduceAux strat maxSteps t 0 [(0, t)]
  ⟨printPlus t, printPlus res.1, (findRedex strat res.1).isNone,
    res.2.1, decide (maxSteps ≤ res.2.1), strat, res.2.2⟩

/-! ### `BetaReducer._identify_combinator` -/

/-- The combinator table of `BetaReducer._identify_combinator`, in source
order. -/
def combinatorTable : List (String × String) :=
  [("λx.x", "I (Identity)"),
   ("λx.λy.x", "K (Constant)"),
   ("λx.λy.y", "KI (False)"),
   ("λx.λy.λz.xz(yz)", "S (Substitution)"),
   ("λf.λg.λx.f(gx)", "B (Composition)"),
   ("λf.(λx.f(xx))(λx.f(xx))", "Y (Fixed-point)"),
   ("λf.λx.f(fx)", "Church 2"),
   ("λf.λx.x", "Church 0"),
   ("λf.λx.fx", "Church 1")]

/-- `BetaReducer._identify_combinator`: compare the space-stripped canonical
print against each space-stripped table pattern, first match wins. -/
def identifyCombinator (t : Term) : Option String :=
  (combinatorTable.find?
    (fun pr => stripSpaces pr.1 == stripSpaces (printPlus t))).map (fun pr => pr.2)

/-! ### General facts about the reduction loop -/

theorem reduceAux_steps_le (strat : Strategy) :
    ∀ fuel cur sc tr, (reduceAux strat fuel cur sc tr).2.1 ≤ sc + fuel := by
  intro fuel
  induction fuel with
  | zero =>
    intro cur sc tr
    simp [reduceAux]
  | succ fuel ih =>
    intro cur sc tr
    rw [reduceAux]
    cases hfind : findRedex strat cur with
    | none => simp
    | some r =>
      simp only []
      split
      · simp
      · have := ih (reduceRedex cur r) (sc + 1) (tr ++ [(sc + 1, reduceRedex cur r)])
        omega

theorem reduce_stepsTaken_le (strat : Strategy) (t : Term) (ms : Nat) :
    (reduce strat t ms).stepsTaken ≤ ms := by
  have h := reduceAux_steps_le strat ms t 0 [(0, t)]
  simpa [reduce] using h

theorem findLO_var (v : String) : findLO (.var v) = none := rfl

theorem findLO_lam (p : String) (b : Term) :
    findLO (.lam p b) =
      (findLO b).map (fun r => ⟨.body :: r.path, r.param, r.rbody, r.argument⟩) := rfl

theorem findLO_app_lam (p : String) (b a : Term) :
    findLO (.app (.lam p b) a) = some ⟨[], p, b, a⟩ := rfl

theorem findLO_app_var (v : String) (a : Term) :
    findLO (.app (.var v) a) =
      (findLO a).map (fun r => ⟨.arg :: r.path, r.param, r.rbody, r.argument⟩) := rfl

theorem findLO_app_app (f1 f2 a : Term) :
    findLO (.app (.app f1 f2) a) =
      match findLO (.app f1 f2) with
      | some r => some ⟨.fn :: r.path, r.param, r.rbody, r.argument⟩
      | none => (findLO a).map (fun r => ⟨.arg :: r.path, r.param, r.rbody, r.argument⟩) := rfl

theorem findLI_var (v : String) : findLI (.var v) = none := rfl

theorem findLI_lam (p : String) (b : Term) :
    findLI (.lam p b) =
      (findLI b).map (fun r => ⟨.body :: r.path, r.param, r.rbody, r.argument⟩) := rfl

theorem findLI_app (f a : Term) :
    findLI (.app f a) =
      match findLI f with
      | some r => some ⟨.fn :: r.path, r.param, r.rbody, r.argument⟩
      | none =>
        match findLI a with
        | some r => some ⟨.arg :: r.path, r.param, r.rbody, r.argument⟩
        | none =>
          match f with
          | .lam p b => some ⟨[], p, b, a⟩
          | _ => none := rfl

theorem findLO_subtermAt : ∀ t r, findLO t = some r →
    subtermAt t r.path = some (.app (.lam r.param r.rbody) r.argument) := by
  intro t
  induction t with
  | var n =>
    intro r h
    rw [findLO_var] at h
    cases h
  | lam p b ih =>
    intro r h
    rw [findLO_lam] at h
    cases hb : findLO b with
    | none => rw [hb] at h; cases h
    | some r' =>
      rw [hb] at h
      simp only [Option.map_some'] at h
      cases h
      simpa [subtermAt] using ih r' hb
  | app f a ihf iha =>
    intro r h
    match f with
    | .lam p b =>
      rw [findLO_app_lam] at h
      cases h
      rfl
    | .var v =>
      rw [findLO_app_var] at h
      cases ha : findLO a with
      | none => rw [ha] at h; cases h
      | some r' =>
        rw [ha] at h
        simp only [Option.map_some'] at h
        cases h
        simpa [subtermAt] using iha r' ha
    | .app f1 f2 =>
      rw [findLO_app_app] at h
      cases hf : findLO (Term.app f1 f2) with
      | some r' =>
        rw [hf] at h
        cases h
        simpa [subtermAt] using ihf r' hf
      | none =>
        rw [hf] at h
        simp only [] at h
        cases ha : findLO a with
        | none => rw [ha] at h; cases h
        | some r' =>
          rw [ha] at h
          simp only [Option.map_some'] at h
          cases h
          simpa [subtermAt] using iha r' ha

theorem findLI_subtermAt : ∀ t r, findLI t = some r →
    subtermAt t r.path = some (.app (.lam r.param r.rbody) r.argument) := by
  intro t
  induction t with
  | var n =>
    intro r h
    rw [findLI_var] at h
    cases h
  | lam p b ih =>
    intro r h
    rw [findLI_lam] at h
    cases hb : findLI b with
    | none => rw [hb] at h; cases h
    | some r' =>
      rw [hb] at h
      simp only [Option.map_some'] at h
      cases h
      simpa [subtermAt] using ih r' hb
  | app f a ihf iha =>
    intro r h
    rw [findLI_app] at h
    cases hf : findLI f with
    | some r' =>
      rw [hf] at h
      cases h
      simpa [subtermAt] using ihf r' hf
    | none =>
      rw [hf] at h
      simp only [] at h
      cases ha : findLI a with
      | some r' =>
        rw [ha] at h
        cases h
        simpa [subtermAt] using iha r' ha
      | none =>
        rw [ha] at h
        match f, h with
        | .lam p b, h =>
          cases h
          rfl

theorem findRedex_subtermAt (strat : Strategy) (t : Term) (r : Redex)
    (h : findRedex strat t = some r) :
    subtermAt t r.path = some (.app (.lam r.param r.rbody) r.argument) := by
  cases strat with
  | normalOrder => exact findLO_subtermAt t r h
  | applicativeOrder => exact findLI_subtermAt t r h
  | callByName => exact findLO_subtermAt t r h
  | callByValue => exact findLO_subtermAt t r h

theorem replaceAtPath_freeVars : ∀ (p : List Dir) (t s new : Term),
    subtermAt t p = some s → freeVars new ⊆ freeVars s →
    freeVars (replaceAtPath t p new) ⊆ freeVars t := by
  intro p
  induction p with
  | nil =>
    intro t s new hs hsub
    simp only [subtermAt, Option.some_inj] at hs
    subst hs
    simpa [replaceAtPath] using hsub
  | cons d p ih =>
    intro t s new hs hsub
    match d, t with
    | .fn, .app f a =>
      simp only [subtermAt] at hs
      simp only [replaceAtPath, freeVars]
      exact Finset.union_subset_union (ih f s new hs hsub) subset_rfl
    | .arg, .app f a =>
      simp only [subtermAt] at hs
      simp only [replaceAtPath, freeVars]
      exact Finset.union_subset_union subset_rfl (ih a s new hs hsub)
    | .body, .lam q b =>
      simp only [subtermAt] at hs
      simp only [replaceAtPath, freeVars]
      exact Finset.sdiff_subset_sdiff (ih b s new hs hsub) subset_rfl
    | .fn, .var v => simp [subtermAt] at hs
    | .fn, .lam q b => simp [subtermAt] at hs
    | .arg, .var v => simp [subtermAt] at hs
    | .arg, .lam q b => simp [subtermAt] at hs
    | .body, .var v => simp [subtermAt] at hs
    | .body, .app f a => simp [subtermAt] at hs

theorem reduceRedex_freeVars (strat : Strategy) (t : Term) (r : Redex)
    (h : findRedex strat t = some r) :
    freeVars (reduceRedex t r) ⊆ freeVars t := by
  have hsub := findRedex_subtermAt strat t r h
  have hfv : freeVars (substitute r.rbody r.param r.argument) ⊆
      freeVars (Term.app (.lam r.param r.rbody) r.argument) := by
    have hc := substitute_freeVars_subset r.rbody r.param r.argument
    simpa [freeVars] using hc
  unfold reduceRedex
  split
  · next hpath =>
    rw [hpath] at hsub
    simp only [subtermAt, Option.some_inj] at hsub
    rw [hsub]
    exact hfv
  · exact replaceAtPath_freeVars r.path t _ _ hsub hfv

theorem reduceAux_trace_fv (strat : Strategy) (t0 : Term) :
    ∀ fuel cur sc tr,
      freeVars cur ⊆ freeVars t0 →
      (∀ pr ∈ tr, freeVars pr.2 ⊆ freeVars t0) →
      (∀ pr ∈ (reduceAux strat fuel cur sc tr).2.2, freeVars pr.2 ⊆ freeVars t0) := by
  intro fuel
  induction fuel with
  | zero =>
    intro cur sc tr hcur htr
    simpa [reduceAux] using htr
  | succ fuel ih =>
    intro cur sc tr hcur htr
    rw [reduceAux]
    cases hfind : findRedex strat cur with
    | none => simpa using htr
    | some r =>
      simp only []
      have hnew : freeVars (reduceRedex cur r) ⊆ freeVars t0 :=
        (reduceRedex_freeVars strat cur r hfind).trans hcur
      have htr' : ∀ pr ∈ tr ++ [(sc + 1, reduceRedex cur r)],
          freeVars pr.2 ⊆ freeVars t0 := by
        intro pr hpr
        rcases List.mem_append.mp hpr with hpr | hpr
        · exact htr pr hpr
        · simp only [List.mem_singleton] at hpr
          subst hpr
          exact hnew
      split
      · exact htr'
      · exact ih (reduceRedex cur r) (sc + 1) _ hnew htr'

theorem reduce_trace_fv (strat : Strategy) (t : Term) (ms : Nat) :
    ∀ pr ∈ (reduce strat t ms).trace, freeVars pr.2 ⊆ freeVars t := by
  intro pr hpr
  have h := reduceAux_trace_fv strat t ms t 0 [(0, t)] subset_rfl
    (by intro pr hpr; simp at hpr; simp [hpr])
  exact h pr (by simpa [reduce] using hpr)

/-! ### Name well-formedness of everything the `plus` engine produces -/

theorem letterNames_good : ∀ s ∈ letterNames, goodNameB s = true := by decide

theorem goodNameB_numName (n : Nat) : goodNameB (numName n) = true := by
  have h : goodNameB (numName n) =
      ('x'.isAlpha && (natStr n).data.all (fun d => d.isAlphanum || d == '_')) := rfl
  rw [h]
  simp only [Bool.and_eq_true, List.all_eq_true]
  refine ⟨by decide, ?_⟩
  intro d hd
  have hdig := natStr_isDigit n d hd
  simp [Char.isAlphanum, hdig]

theorem freshVar_good (avoid : Finset String) : goodNameB (freshVar avoid) = true := by
  unfold freshVar
  cases hfind : letterNames.find? (fun s => decide (s ∉ avoid)) with
  | some s => exact letterNames_good s (List.mem_of_find?_eq_some hfind)
  | none => exact goodNameB_numName _

theorem substF_good : ∀ fuel t x r, goodTermB t = true → goodTermB r = true →
    goodTermB (substF fuel t x r) = true := by
  intro fuel
  induction fuel with
  | zero =>
    intro t x r ht hr
    simpa [substF] using ht
  | succ fuel ih =>
    intro t x r ht hr
    match t with
    | .var v =>
      simp only [substF]
      split
      · exact hr
      · exact ht
    | .app f a =>
      simp only [goodTermB, Bool.and_eq_true] at ht
      simp only [substF, goodTermB, Bool.and_eq_true]
      exact ⟨ih f x r ht.1 hr, ih a x r ht.2 hr⟩
    | .lam p b =>
      simp only [goodTermB, Bool.and_eq_true] at ht
      simp only [substF]
      split
      · simp only [goodTermB, Bool.and_eq_true]
        exact ⟨ht.1, ht.2⟩
      · split
        · simp only [goodTermB, Bool.and_eq_true]
          refine ⟨freshVar_good _, ?_⟩
          refine ih _ x r ?_ hr
          refine ih b p _ ht.2 ?_
          simp only [goodTermB]
          exact freshVar_good _
        · simp only [goodTermB, Bool.and_eq_true]
          exact ⟨ht.1, ih b x r ht.2 hr⟩

theorem substitute_good (t : Term) (x : String) (r : Term)
    (ht : goodTermB t = true) (hr : goodTermB r = true) :
    goodTermB (substitute t x r) = true := substF_good (size t) t x r ht hr

theorem pVarName_good : ∀ s nm rest, pVarName s = .ok (nm, rest) →
    goodNameB nm = true := by
  intro s nm rest h
  match s with
  | [] => cases h
  | c :: r =>
    simp only [pVarName] at h
    split at h
    · cases h
      next halpha =>
        have hgn : goodNameB (String.mk (c :: r.takeWhile isVarChar)) =
            (c.isAlpha && (r.takeWhile isVarChar).all (fun d => d.isAlphanum || d == '_')) := rfl
        rw [hgn]
        simp only [Bool.and_eq_true, List.all_eq_true]
        refine ⟨halpha, ?_⟩
        intro d hd
        have := List.mem_takeWhile_imp hd
        simpa [isVarChar] using this
    · cases h

theorem parseFuns_good : ∀ fuel,
    (∀ s t rest, pTerm fuel s = .ok (t, rest) → goodTermB t = true) ∧
    (∀ s t rest, pApp fuel s = .ok (t, rest) → goodTermB t = true) ∧
    (∀ left s t rest, goodTermB left = true →
      pAppLoop fuel left s = .ok (t, rest) → goodTermB t = true) ∧
    (∀ s t rest, pAtom fuel s = .ok (t, rest) → goodTermB t = true) ∧
    (∀ s t rest, pLam fuel s = .ok (t, rest) → goodTermB t = true) := by
  intro fuel
  induction fuel with
  | zero =>
    refine ⟨?_, ?_, ?_, ?_, ?_⟩ <;> intro _ _ _ <;> intros <;> simp_all [pTerm, pApp, pAppLoop, pAtom, pLam]
  | succ fuel ih =>
    obtain ⟨ihTerm, ihApp, ihLoop, ihAtom, ihLam⟩ := ih
    refine ⟨?_, ?_, ?_, ?_, ?_⟩
    · intro s t rest h
      exact ihApp s t rest h
    · intro s t rest h
      simp only [pApp] at h
      cases hatom : pAtom fuel s with
      | error e => rw [hatom] at h; cases h
      | ok pr =>
        rw [hatom] at h
        exact ihLoop pr.1 pr.2 t rest (ihAtom s pr.1 pr.2 (by rw [hatom])) h
    · intro left s t rest hleft h
      match s with
      | [] =>
        simp only [pAppLoop] at h
        cases h
        exact hleft
      | c :: cs =>
        simp only [pAppLoop] at h
        split at h
        · cases h
          exact hleft
        · cases hatom : pAtom fuel (c :: cs) with
          | error e => rw [hatom] at h; cases h
          | ok pr =>
            rw [hatom] at h
            refine ihLoop _ pr.2 t rest ?_ h
            simp only [goodTermB, Bool.and_eq_true]
            exact ⟨hleft, ihAtom _ pr.1 pr.2 (by rw [hatom])⟩
    · intro s t rest h
      match s with
      | [] => cases h
      | c :: cs =>
        simp only [pAtom] at h
        split at h
        · exact ihLam cs t rest h
        · split at h
          · cases hterm : pTerm fuel cs with
            | error e => rw [hterm] at h; cases h
            | ok pr =>
              obtain ⟨t1, s1⟩ := pr
              cases s1 with
              | nil => rw [hterm] at h; cases h
              | cons c1 s2 =>
                simp only [hterm] at h
                split at h
                · cases h
                  exact ihTerm cs _ _ hterm
                · cases h
          · split at h
            · cases hname : pVarName (c :: cs) with
              | error e => rw [hname] at h; cases h
              | ok pr =>
                obtain ⟨nm, s1⟩ := pr
                simp only [hname] at h
                cases h
                simp only [goodTermB]
                exact pVarName_good _ nm _ hname
            · cases h
    · intro s t rest h
      simp only [pLam] at h
      cases hname : pVarName s with
      | error e => rw [hname] at h; cases h
      | ok pr =>
        obtain ⟨pn, s1⟩ := pr
        cases s1 with
        | nil => rw [hname] at h; cases h
        | cons c s2 =>
          simp only [hname] at h
          split at h
          · cases hterm : pTerm fuel s2 with
            | error e => rw [hterm] at h; cases h
            | ok pr2 =>
              obtain ⟨body, s3⟩ := pr2
              simp only [hterm] at h
              cases h
              simp only [goodTermB, Bool.and_eq_true]
              exact ⟨pVarName_good s pn _ hname, ihTerm s2 _ _ hterm⟩
          · cases h

theorem parsePlus_good (input : String) (t : Term) (h : parsePlus input = .ok t) :
    goodTermB t = true := by
  simp only [parsePlus] at h
  cases hterm : pTerm (4 * (input.data.filter (fun c => !(c == ' '))).length + 16)
      (input.data.filter (fun c => !(c == ' '))) with
  | error e => rw [hterm] at h; cases h
  | ok pr =>
    obtain ⟨t', rest⟩ := pr
    simp only [hterm] at h
    split at h
    · cases h
      exact (parseFuns_good _).1 _ _ _ hterm
    · cases h

theorem replaceAtPath_good : ∀ (p : List Dir) (t new : Term),
    goodTermB t = true → goodTermB new = true →
    goodTermB (replaceAtPath t p new) = true := by
  intro p
  induction p with
  | nil =>
    intro t new ht hn
    simpa [replaceAtPath] using hn
  | cons d p ih =>
    intro t new ht hn
    match d, t with
    | .fn, .app f a =>
      simp only [goodTermB, Bool.and_eq_true] at ht
      simp only [replaceAtPath, goodTermB, Bool.and_eq_true]
      exact ⟨ih f new ht.1 hn, ht.2⟩
    | .arg, .app f a =>
      simp only [goodTermB, Bool.and_eq_true] at ht
      simp only [replaceAtPath, goodTermB, Bool.and_eq_true]
      exact ⟨ht.1, ih a new ht.2 hn⟩
    | .body, .lam q b =>
      simp only [goodTermB, Bool.and_eq_true] at ht
      simp only [replaceAtPath, goodTermB, Bool.and_eq_true]
      exact ⟨ht.1, ih b new ht.2 hn⟩
    | .fn, .var v => exact ht
    | .fn, .lam q b => exact ht
    | .arg, .var v => exact ht
    | .arg, .lam q b => exact ht
    | .body, .var v => exact ht
    | .body, .app f a => exact ht

theorem subtermAt_good : ∀ (p : List Dir) (t s : Term),
    subtermAt t p = some s → goodTermB t = true → goodTermB s = true := by
  intro p
  induction p with
  | nil =>
    intro t s hs ht
    simp only [subtermAt, Option.some_inj] at hs
    rw [← hs]
    exact ht
  | cons d p ih =>
    intro t s hs ht
    match d, t with
    | .fn, .app f a =>
      simp only [subtermAt] at hs
      simp only [goodTermB, Bool.and_eq_true] at ht
      exact ih f s hs ht.1
    | .arg, .app f a =>
      simp only [subtermAt] at hs
      simp only [goodTermB, Bool.and_eq_true] at ht
      exact ih a s hs ht.2
    | .body, .lam q b =>
      simp only [subtermAt] at hs
      simp only [goodTermB, Bool.and_eq_true] at ht
      exact ih b s hs ht.2
    | .fn, .var v => simp [subtermAt] at hs
    | .fn, .lam q b => simp [subtermAt] at hs
    | .arg, .var v => simp [subtermAt] at hs
    | .arg, .lam q b => simp [subtermAt] at hs
    | .body, .var v => simp [subtermAt] at hs
    | .body, .app f a => simp [subtermAt] at hs

theorem reduceRedex_good (strat : Strategy) (t : Term) (r : Redex)
    (hfind : findRedex strat t = some r) (ht : goodTermB t = true) :
    goodTermB (reduceRedex t r) = true := by
  have hsub := findRedex_subtermAt strat t r hfind
  have hs := subtermAt_good r.path t _ hsub ht
  simp only [goodTermB, Bool.and_eq_true] at hs
  have hgood : goodTermB (substitute r.rbody r.param r.argument) = true :=
    substitute_good _ _ _ hs.1.2 hs.2
  unfold reduceRedex
  split
  · exact hgood
  · exact replaceAtPath_good r.path t _ ht hgood

theorem reduceAux_trace_good (strat : Strategy) :
    ∀ fuel cur sc tr,
      goodTermB cur = true →
      (∀ pr ∈ tr, goodTermB pr.2 = true) →
      (∀ pr ∈ (reduceAux strat fuel cur sc tr).2.2, goodTermB pr.2 = true) := by
  intro fuel
  induction fuel with
  | zero =>
    intro cur sc tr hcur htr
    simpa [reduceAux] using htr
  | succ fuel ih =>
    intro cur sc tr hcur htr
    rw [reduceAux]
    cases hfind : findRedex strat cur with
    | none => simpa using htr
    | some r =>
      simp only []
      have hnew : goodTermB (reduceRedex cur r) = true :=
        reduceRedex_good strat cur r hfind hcur
      have htr' : ∀ pr ∈ tr ++ [(sc + 1, reduceRedex cur r)], goodTermB pr.2 = true := by
        intro pr hpr
        rcases List.mem_append.mp hpr with hpr | hpr
        · exact htr pr hpr
        · simp only [List.mem_singleton] at hpr
          subst hpr
          exact hnew
      split
      · exact htr'
      · exact ih (reduceRedex cur r) (sc + 1) _ hnew htr'

theorem reduce_trace_good (strat : Strategy) (t : Term) (ms : Nat)
    (ht : goodTermB t = true) :
    ∀ pr ∈ (reduce strat t ms).trace, goodTermB pr.2 = true := by
  intro pr hpr
  have h := reduceAux_trace_good strat ms t 0 [(0, t)] ht
    (by intro pr hpr; simp at hpr; simp [hpr, ht])
  exact h pr (by simpa [reduce] using hpr)

/-! ### Combinator table membership -/

theorem find?_strip_isSome (l : List (String × String)) (s : String) :
    ((l.find? (fun pr => stripSpaces pr.1 == s)).isSome = true) ↔
      s ∈ l.map (fun pr => stripSpaces pr.1) := by
  induction l with
  | nil => simp
  | cons hd tl ih =>
    by_cases hhd : stripSpaces hd.1 = s
    · rw [List.find?_cons_of_pos]
      · simp [hhd]
      · simp [hhd]
    · rw [List.find?_cons_of_neg]
      · simp only [List.map, List.mem_cons]
        rw [ih]
        constructor
        · intro hmem
          exact Or.inr hmem
        · rintro (hmem | hmem)
          · exact absurd hmem.symm hhd
          · exact hmem
      · simp [hhd]

theorem identifyCombinator_isSome (t : Term) :
    ((identifyCombinator t).isSome = true) ↔
      stripSpaces (printPlus t) ∈ combinatorTable.map (fun pr => stripSpaces pr.1) := by
  unfold identifyCombinator
  rw [Option.isSome_map']
  exact find?_strip_isSome combinatorTable (stripSpaces (printPlus t))

end Plus

namespace CV

open Engine Engine.Term

/-! ## `correct_lambda_parser.py`: `CorrectLambdaParser` and
`CorrectBetaReducer` -/

/-- Canonical print of `correct_lambda_parser.py`: `Lambda.__str__` is
`\param.body` and `Application.__str__` always parenthesizes,
`({function} {argument})`. -/
def printCV : Term → String
  | .var n => n
  | .lam p b => "\\" ++ p ++ "." ++ printCV b
  | .app f a => "(" ++ printCV f ++ " " ++ printCV a ++ ")"

/-- `CorrectLambdaParser._preprocess_unicode` on a single character:
`λ` becomes a backslash; the logical glyphs become words. -/
def preprocessChar (c : Char) : List Char :=
  if c = 'λ' then ['\\']
  else if c = '∧' then ['a', 'n', 'd']
  else if c = '∨' then ['o', 'r']
  else if c = '¬' then ['n', 'o', 't']
  else [c]

/-- `CorrectLambdaParser._preprocess_unicode`. -/
def preprocess (s : String) : List Char := (s.data.map preprocessChar).flatten

/-- The scanning loop of `CorrectLambdaParser._tokenize`: whitespace is
skipped, parentheses, backslash and dot are single-character tokens, letter
runs are identifier tokens, and any other character is silently dropped. -/
def tokenizeAux : Nat → List Char → List String
  | 0, _ => []
  | fuel + 1, s =>
    match s with
    | [] => []
    | c :: rest =>
      if c.isWhitespace then tokenizeAux fuel rest
      else if c = '(' ∨ c = ')' then String.mk [c] :: tokenizeAux fuel rest
      else if c = '\\' then "\\" :: tokenizeAux fuel rest
      else if c = '.' then "." :: tokenizeAux fuel rest
      else if c.isAlpha then
        String.mk ((c :: rest).takeWhile Char.isAlpha) ::
          tokenizeAux fuel ((c :: rest).dropWhile Char.isAlpha)
      else tokenizeAux fuel rest

/-- `CorrectLambdaParser._tokenize`: preprocess then scan; every loop
iteration consumes at least one character, so the fuel is sufficient. -/
def tokenize (s : String) : List String :=
  tokenizeAux ((preprocess s).length + 1) (preprocess s)

/-- Python's `str.isalpha`: non-empty and all letters. -/
def strIsAlpha (s : String) : Bool := !(s.data.isEmpty) && s.data.all Char.isAlpha

mutual

/-- `CorrectLambdaParser._parse_term`. -/
def cTerm : Nat → List String → Except String (Term × List String)
  | 0, _ => .error "out of fuel"
  | fuel + 1, s => cApp fuel s

/-- `CorrectLambdaParser._parse_application` (left-associative). -/
def cApp : Nat → List String → Except String (Term × List String)
  | 0, _ => .error "out of fuel"
  | fuel + 1, s =>
    match cAtom fuel s with
    | .error e => .error e
    | .ok (left, s1) => cAppLoop fuel left s1

/-- The `while` loop inside `_parse_application`: absorb atoms until the
token stream ends or the next token is `)` or `\ `. -/
def cAppLoop : Nat → Term → List String → Except String (Term × List String)
  | 0, _, _ => .error "out of fuel"
  | fuel + 1, left, s =>
    match s with
    | [] => .ok (left, [])
    | tok :: rest =>
      if tok = ")" ∨ tok = "\\" then .ok (left, tok :: rest)
      else
        match cAtom fuel (tok :: rest) with
        | .error e => .error e
        | .ok (right, s1) => cAppLoop fuel (.app left right) s1

/-- `CorrectLambdaParser._parse_atom`. -/
def cAtom : Nat → List String → Except String (Term × List String)
  | 0, _ => .error "out of fuel"
  | fuel + 1, s =>
    match s with
    | [] => .error "Unexpected end of input"
    | tok :: rest =>
      if tok = "\\" then cLam fuel rest
      else if tok = "(" then
        match cTerm fuel rest with
        | .error e => .error e
        | .ok (t, s1) =>
          match s1 with
          | tok1 :: s2 =>
            if tok1 = ")" then .ok (t, s2) else .error "Expected closing parenthesis"
          | [] => .error "Expected closing parenthesis"
      else if strIsAlpha tok then .ok (.var tok, rest)
      else .error "Unexpected token"

/-- `CorrectLambdaParser._parse_lambda` (the backslash token has already
been consumed by `cAtom`). -/
def cLam : Nat → List String → Except String (Term × List String)
  | 0, _ => .error "out of fuel"
  | fuel + 1, s =>
    match s with
    | [] => .error "Expected parameter after lambda"
    | tok :: rest =>
      if strIsAlpha tok then
        match rest with
        | tok1 :: s2 =>
          if tok1 = "." then
            match cTerm fuel s2 with
            | .error e => .error e
            | .ok (body, s3) => .ok (.lam tok body, s3)
          else .error "Expected dot after lambda parameter"
        | [] => .error "Expected dot after lambda parameter"
      else .error "Expected variable name"

end

/-- `CorrectLambdaParser.parse`: tokenize, reject an empty token list, parse
a term, and require every token to be consumed. -/
def parseCV (input : String) : Except String Term :=
  let toks := tokenize input
  if toks = [] then .error "Empty expression"
  else
    match cTerm (4 * toks.length + 16) toks with
    | .error e => .error e
    | .ok (t, rest) =>
      if rest = [] then .ok t else .error "Unexpected token"

/-! ### `CorrectBetaReducer` -/

/-- `CorrectBetaReducer._generate_fresh_variable`: increment the stateful
counter and return `v{counter}`; no avoid-set is consulted. -/
def freshCV (counter : Nat) : String × Nat := ("v" ++ natStr (counter + 1), counter + 1)

/-- Fuel-based embedding of `CorrectBetaReducer._substitute`, threading the
instance's `variable_counter`.  As for `Plus.substF`, the fuel majorizes the
size of the term substituted into and `size t` is sufficient because the
alpha-renaming pass substitutes a variable for a variable, which preserves
size. -/
def csubstF : Nat → Term → String → Term → Nat → Term × Nat
  | 0, t, _, _, k => (t, k)
  | fuel + 1, t, x, r, k =>
    match t with
    | .var v => if v = x then (r, k) else (.var v, k)
    | .lam p b =>
      if p = x then (.lam p b, k)
      else if p ∈ freeVars r then
        let fc := freshCV k
        let rb := csubstF fuel b p (.var fc.1) fc.2
        let nb := csubstF fuel rb.1 x r rb.2
        (.lam fc.1 nb.1, nb.2)
      else
        let nb := csubstF fuel b x r k
        (.lam p nb.1, nb.2)
    | .app f a =>
      let nf := csubstF fuel f x r k
      let na := csubstF fuel a x r nf.2
      (.app nf.1 na.1, na.2)

/-- `CorrectBetaReducer._substitute(term, parameter, argument)` with the
counter threaded explicitly. -/
def csubst (t : Term) (x : String) (r : Term) (k : Nat) : Term × Nat :=
  csubstF (size t) t x r k

/-- `CorrectBetaReducer._beta_reduce`: contract the first redex found by an
outermost-first traversal (the current node, then the function — kept only
when the contraction changed it — then the argument, then the body); the
`redex_info` parameter of the source is only compared for identity and does
not influence the traversal. -/
def betaReduceCV : Term → Nat → Term × Nat
  | .app f a, k =>
    match f with
    | .lam p b => csubst b p a k
    | _ =>
      let nf := betaReduceCV f k
      if nf.1 ≠ f then (.app nf.1 a, nf.2)
      else
        let na := betaReduceCV a nf.2
        (.app f na.1, na.2)
  | .lam p b, k =>
    let nb := betaReduceCV b k
    (.lam p nb.1, nb.2)
  | .var v, k => (.var v, k)

/-- The dictionary built by the redex finders of `CorrectBetaReducer`:
printed function, argument, parameter and body of the found redex. -/
structure RedexInfo : Type where
  function : String
  argument : String
  param : String
  rbody : String
deriving DecidableEq

/-- `CorrectBetaReducer._find_leftmost_outermost_redex`. -/
def findLOCV : Term → Option RedexInfo
  | .var _ => none
  | .lam _ b => findLOCV b
  | .app f a =>
    match f with
    | .lam p b => some ⟨printCV f, printCV a, p, printCV b⟩
    | _ =>
      match findLOCV f with
      | some r => some r
      | none => findLOCV a

/-- `CorrectBetaReducer._find_leftmost_innermost_redex`: search the function,
then the argument, and only then test the current node. -/
def findLICV : Term → Option RedexInfo
  | .var _ => none
  | .lam _ b => findLICV b
  | .app f a =>
    match findLICV f with
    | some r => some r
    | none =>
      match findLICV a with
      | some r => some r
      | none =>
        match f with
        | .lam p b => some ⟨printCV f, printCV a, p, printCV b⟩
        | _ => none

/-- `CorrectBetaReducer._find_redex`. -/
def findRedexCV : Strategy → Term → Option RedexInfo
  | .normalOrder, t => findLOCV t
  | .applicativeOrder, t => findLICV t
  | .callByName, t => findLOCV t
  | .callByValue, t => findLOCV t

/-- Stagnation test of `CorrectBetaReducer.reduce` (printed forms of the
last three snapshots all identical). -/
def lastThreeStagnantCV (tr : List (Nat × Term)) : Bool :=
  match tr.reverse with
  | a :: b :: c :: _ =>
    printCV a.2 == printCV b.2 && printCV b.2 == printCV c.2
  | _ => false

/-- The `while` loop of `CorrectBetaReducer.reduce`, threading the
`variable_counter` state. -/
def reduceCVAux (strat : Strategy) : Nat → Term → Nat → Nat → List (Nat × Term) →
    Term × Nat × Nat × List (Nat × Term)
  | 0, cur, sc, k, tr => (cur, sc, k, tr)
  | fuel + 1, cur, sc, k, tr =>
    match findRedexCV strat cur with
    | none => (cur, sc, k, tr)
    | some _ =>
      let stepRes := betaReduceCV cur k
      let tr' := tr ++ [(sc + 1, stepRes.1)]
      if 2 < sc + 1 ∧ lastThreeStagnantCV tr' = true then (stepRes.1, sc + 1, stepRes.2, tr')
      else reduceCVAux strat fuel stepRes.1 (sc + 1) stepRes.2 tr'

/-- The combinator table of `CorrectBetaReducer._identify_combinator`, in
source order (name, pattern). -/
def combinatorTableCV : List (String × String) :=
  [("I", "\\x.x"),
   ("K", "\\x.\\y.x"),
   ("S", "\\x.\\y.\\z.x z (y z)"),
   ("Y", "\\f.(\\x.f (x x)) (\\x.f (x x))"),
   ("B", "\\f.\\g.\\x.f (g x)"),
   ("C", "\\f.\\x.\\y.f y x"),
   ("W", "\\f.\\x.f x x")]

/-- `CorrectBetaReducer._identify_combinator`. -/
def identifyCV (t : Term) : Option String :=
  (combinatorTableCV.find?
    (fun pr => stripSpaces pr.2 == stripSpaces (printCV t))).map (fun pr => pr.1)

/-- The dictionary returned by `CorrectBetaReducer.reduce` (the fields the
claims are about; trace snapshots stored as terms, as for `Plus`). -/
structure CVResult : Type where
  original : String
  final : String
  isNormalForm : Bool
  steps : Nat
  strategy : Strategy
  combinator : Option String
  trace : List (Nat × Term)
deriving DecidableEq

/-- `CorrectBetaReducer.reduce(term, max_steps)` on a freshly constructed
reducer (variable counter starting at 0). -/
def reduceCV (strat : Strategy) (t : Term) (maxSteps : Nat) : CVResult :=
  let res := reduceCVAux strat maxSteps t 0 0 [(0, t)]
  ⟨printCV t, printCV res.1, (findRedexCV strat res.1).isNone, res.2.1, strat,
    identifyCV res.1, res.2.2.2⟩

/-! ### What the applicative-order machinery of `CorrectBetaReducer` does -/

/-- Specification-side test: the term contains a beta-redex somewhere. -/
def hasRedexB : Term → Bool
  | .var _ => false
  | .lam _ b => hasRedexB b
  | .app f a =>
    (match f with
     | .lam _ _ => true
     | _ => false) || hasRedexB f || hasRedexB a

theorem findLICV_app (f a : Term) :
    findLICV (.app f a) =
      match findLICV f with
      | some r => some r
      | none =>
        match findLICV a with
        | some r => some r
        | none =>
          match f with
          | .lam p b => some ⟨printCV f, printCV a, p, printCV b⟩
          | _ => none := rfl

theorem findLICV_isSome : ∀ t : Term, (findLICV t).isSome = hasRedexB t := by
  intro t
  induction t with
  | var v => rfl
  | lam p b ih => simpa [findLICV, hasRedexB] using ih
  | app f a ihf iha =>
    rw [findLICV_app]
    cases hf : findLICV f with
    | some r =>
      rw [hf] at ihf
      simp only [hasRedexB, ← ihf, Option.isSome_some, Bool.or_true, Bool.true_or]
    | none =>
      rw [hf] at ihf
      cases ha : findLICV a with
      | some r =>
        rw [ha] at iha
        simp only [hasRedexB, ← ihf, ← iha, Option.isSome_some, Option.isSome_none,
          Bool.or_true, Bool.or_false, Bool.false_or]
      | none =>
        rw [ha] at iha
        match f with
        | .lam p b => simp [hasRedexB]
        | .var v =>
          have hr : hasRedexB (Term.app (Term.var v) a) =
              ((false || hasRedexB (Term.var v)) || hasRedexB a) := rfl
          rw [hr, ← ihf, ← iha]
          rfl
        | .app f1 f2 =>
          have hr : hasRedexB (Term.app (Term.app f1 f2) a) =
              ((false || hasRedexB (Term.app f1 f2)) || hasRedexB a) := rfl
          rw [hr, ← ihf, ← iha]
          rfl

theorem findLICV_app_left (f a : Term) (hf : hasRedexB f = true) :
    findLICV (.app f a) = findLICV f := by
  have hsome := findLICV_isSome f
  rw [hf] at hsome
  cases hfind : findLICV f with
  | none => rw [hfind] at hsome; cases hsome
  | some r => rw [findLICV_app, hfind]

theorem findLICV_app_right (f a : Term) (hf : hasRedexB f = false)
    (ha : hasRedexB a = true) : findLICV (.app f a) = findLICV a := by
  have hsf := findLICV_isSome f
  rw [hf] at hsf
  have hsa := findLICV_isSome a
  rw [ha] at hsa
  cases hfindf : findLICV f with
  | some r => rw [hfindf] at hsf; cases hsf
  | none =>
    cases hfinda : findLICV a with
    | none => rw [hfinda] at hsa; cases hsa
    | some r => rw [findLICV_app, hfindf, hfinda]

theorem betaReduceCV_root_redex (p : String) (b a : Term) (k : Nat) :
    betaReduceCV (.app (.lam p b) a) k = csubst b p a k := rfl

theorem freshCV_good (k : Nat) : goodNameB (freshCV k).1 = true := by
  have h : goodNameB (freshCV k).1 =
      ('v'.isAlpha && (natStr (k + 1)).data.all (fun d => d.isAlphanum || d == '_')) := rfl
  rw [h]
  simp only [Bool.and_eq_true, List.all_eq_true]
  refine ⟨by decide, ?_⟩
  intro d hd
  have hdig := natStr_isDigit (k + 1) d hd
  simp [Char.isAlphanum, hdig]

end CV

/-! ## The claims -/

open Engine

/-- Claim C1: substitution in `BetaReducer._substitute` is capture-avoiding.
First conjunct: no free variable of the replacement `N` is lost (captured) —
whenever `x` occurs free in `M`, every free variable of `N` is still free in
`substitute(M, x, N)`.  Second conjunct: in the alpha-renaming branch the
fresh name is chosen exactly as the spec demands — not free in the body, not
free in the replacement, and different from the substituted variable. -/
theorem C1_substitution_non_capture :
    (∀ (M : Term) (x : String) (N : Term) (v : String),
      v ∈ Term.freeVars N → x ∈ Term.freeVars M →
      v ∈ Term.freeVars (Plus.substitute M x N)) ∧
    (∀ (b N : Term) (x : String),
      Plus.freshVar (Term.freeVars b ∪ Term.freeVars N ∪ {x}) ∉ Term.freeVars b ∧
      Plus.freshVar (Term.freeVars b ∪ Term.freeVars N ∪ {x}) ∉ Term.freeVars N ∧
      Plus.freshVar (Term.freeVars b ∪ Term.freeVars N ∪ {x}) ≠ x) :=
  ⟨fun M x N v hv hx => Plus.substitute_freeVars_superset M x N hx hv,
   fun b N x => Plus.freshVar_avoid_facts b N x⟩

/-- Witness for C1 at `M = λy.x`, `x = x`, `N = y` (the capture-prone
instance: the binder `y` is free in the replacement). -/
theorem C1_substitution_non_capture_witness :
    "y" ∈ Term.freeVars
      (Plus.substitute (.lam "y" (.var "x")) "x" (.var "y")) :=
  C1_substitution_non_capture.1 (.lam "y" (.var "x")) "x" (.var "y") "y"
    (by decide) (by decide)

/-- Claim C2: divergence containment — for every input term, every strategy,
and every `max_steps` bound, `BetaReducer.reduce` performs at most
`max_steps` reduction steps.  (Termination and absence of exceptions hold by
construction of the embedding: `reduce` is a total function into
`ReductionResult`.) -/
theorem C2_divergence_containment :
    ∀ (strat : Strategy) (t : Term) (maxSteps : Nat),
      (Plus.reduce strat t maxSteps).stepsTaken ≤ maxSteps :=
  fun strat t ms => Plus.reduce_stepsTaken_le strat t ms

/-- Counterexample to claim C3: with the applicative-order strategy on
`(λx.x) ((λy.y) z)`, the leftmost-innermost redex is `(λy.y) z` (as the
finder itself reports), but the first step of `CorrectBetaReducer.reduce`
rewrites the root redex instead, producing `(λy.y) z` rather than the
innermost contraction `(λx.x) z`. -/
theorem C3_applicative_innermost_counterexample :
    ((CV.reduceCV .applicativeOrder
        (.app (.lam "x" (.var "x"))
          (.app (.lam "y" (.var "y")) (.var "z"))) 10).trace[1]? =
      some (1, .app (.lam "y" (.var "y")) (.var "z"))) ∧
    CV.findLICV (.app (.lam "x" (.var "x"))
        (.app (.lam "y" (.var "y")) (.var "z"))) =
      some ⟨"\\y.y", "z", "y", "y"⟩ ∧
    (Term.app (.lam "y" (.var "y")) (.var "z")) ≠
      (Term.app (.lam "x" (.var "x")) (.var "z")) :=
  ⟨rfl, rfl, by decide⟩

/-- Claim C3 as amended: under the applicative-order strategy the redex
finder `_find_leftmost_innermost_redex` does search children before the
current node (conjuncts 2 and 3), but the sub-term actually rewritten by
`_beta_reduce` is chosen by an outermost-first traversal: whenever the whole
term is a redex it is contracted there, even if deeper redexes exist
(conjunct 1). -/
theorem C3_applicative_step_amended :
    (∀ (p : String) (b a : Term) (k : Nat),
      CV.betaReduceCV (.app (.lam p b) a) k = CV.csubst b p a k) ∧
    (∀ f a : Term, CV.hasRedexB f = true →
      CV.findLICV (.app f a) = CV.findLICV f) ∧
    (∀ f a : Term, CV.hasRedexB f = false → CV.hasRedexB a = true →
      CV.findLICV (.app f a) = CV.findLICV a) :=
  ⟨fun p b a k => rfl, CV.findLICV_app_left, CV.findLICV_app_right⟩

/-- Witness for the amended C3: the finder recurses into a function child
that contains a redex, and into the argument child when only it has one. -/
theorem C3_applicative_step_amended_witness :
    CV.findLICV (.app (.app (.lam "x" (.var "x")) (.var "y")) (.var "z")) =
      CV.findLICV (.app (.lam "x" (.var "x")) (.var "y")) ∧
    CV.findLICV (.app (.var "w") (.app (.lam "x" (.var "x")) (.var "y"))) =
      CV.findLICV (.app (.lam "x" (.var "x")) (.var "y")) :=
  ⟨C3_applicative_step_amended.2.1 _ _ (by decide),
   C3_applicative_step_amended.2.2 _ _ (by decide) (by decide)⟩

/-- Counterexample to claim C4: reducing the parse of
`(\x.x x) (\x.x x)` with normal order and `max_steps = 10` gives
`max_steps_reached = false`, not `true`, because the stagnation guard ends
the run after 3 steps and the flag is `step_count >= max_steps`. -/
theorem C4_omega_flag_counterexample :
    CV.parseCV "(\\x.x x) (\\x.x x)" =
      .ok (.app (.lam "x" (.app (.var "x") (.var "x")))
            (.lam "x" (.app (.var "x") (.var "x")))) ∧
    (Plus.reduce .normalOrder
      (.app (.lam "x" (.app (.var "x") (.var "x")))
            (.lam "x" (.app (.var "x") (.var "x")))) 10).maxStepsReached = false :=
  ⟨rfl, rfl⟩

/-- Claim C4 as amended: on the parse of `(\x.x x) (\x.x x)` with normal
order and `max_steps = 10` the run is indeed not a normal form and the
stagnation guard fires well before step 10 (at step 3), but consequently
`max_steps_reached` is `false`, not `true`. -/
theorem C4_omega_stagnation_amended :
    CV.parseCV "(\\x.x x) (\\x.x x)" =
      .ok (.app (.lam "x" (.app (.var "x") (.var "x")))
            (.lam "x" (.app (.var "x") (.var "x")))) ∧
    (Plus.reduce .normalOrder
      (.app (.lam "x" (.app (.var "x") (.var "x")))
            (.lam "x" (.app (.var "x") (.var "x")))) 10).isNormalForm = false ∧
    (Plus.reduce .normalOrder
      (.app (.lam "x" (.app (.var "x") (.var "x")))
            (.lam "x" (.app (.var "x") (.var "x")))) 10).stepsTaken = 3 ∧
    (Plus.reduce .normalOrder
      (.app (.lam "x" (.app (.var "x") (.var "x")))
            (.lam "x" (.app (.var "x") (.var "x")))) 10).maxStepsReached = false :=
  ⟨rfl, rfl, rfl, rfl⟩

/-- Counterexample to claim C5: reducing `(λx.x) y` with `max_steps = 1`
reaches a true normal form in exactly one step, yet `max_steps_reached` is
`true` — the flag does not mean "the bound, and not a normal form, ended the
run". -/
theorem C5_flag_iff_counterexample :
    (Plus.reduce .normalOrder (.app (.lam "x" (.var "x")) (.var "y")) 1).maxStepsReached
        = true ∧
    (Plus.reduce .normalOrder (.app (.lam "x" (.var "x")) (.var "y")) 1).isNormalForm
        = true :=
  ⟨rfl, rfl⟩

/-- Claim C5 as amended: `max_steps_reached` is true iff the step budget was
fully consumed (`steps_taken = max_steps`), regardless of whether the final
term happens to be a normal form; when the stagnation guard ends the run
early the flag is false. -/
theorem C5_flag_iff_amended :
    ∀ (strat : Strategy) (t : Term) (ms : Nat),
      (Plus.reduce strat t ms).maxStepsReached = true ↔
        (Plus.reduce strat t ms).stepsTaken = ms := by
  intro strat t ms
  have hle := Plus.reduce_stepsTaken_le strat t ms
  have hdef : (Plus.reduce strat t ms).maxStepsReached =
      decide (ms ≤ (Plus.reduce strat t ms).stepsTaken) := rfl
  rw [hdef, decide_eq_true_iff]
  omega

/-- Claim C6: `CorrectLambdaParser.parse` on `(\x.\y.x) a b` yields the
left-associated application, and `CorrectBetaReducer.reduce` with normal
order reduces it to `a` in exactly 2 steps, reaching a normal form. -/
theorem C6_left_assoc_and_reduction :
    CV.parseCV "(\\x.\\y.x) a b" =
      .ok (.app (.app (.lam "x" (.lam "y" (.var "x"))) (.var "a")) (.var "b")) ∧
    (CV.reduceCV .normalOrder
      (.app (.app (.lam "x" (.lam "y" (.var "x"))) (.var "a")) (.var "b")) 10).final
        = "a" ∧
    (CV.reduceCV .normalOrder
      (.app (.app (.lam "x" (.lam "y" (.var "x"))) (.var "a")) (.var "b")) 10).steps
        = 2 ∧
    (CV.reduceCV .normalOrder
      (.app (.app (.lam "x" (.lam "y" (.var "x"))) (.var "a")) (.var "b")) 10).isNormalForm
        = true :=
  ⟨rfl, rfl, rfl, rfl⟩

/-- Claim C7 (code bug): the parse/print round trip fails on the term
`Application(x, y)`, which the parser itself produces from `(x)y`.  Printing
gives `x y`, but `LambdaParser.parse` strips every space before tokenizing,
so re-parsing merges the two names into the single variable `xy`. -/
theorem C7_roundtrip_code_bug :
    Plus.parsePlus "(x)y" = .ok (.app (.var "x") (.var "y")) ∧
    Plus.printPlus (.app (.var "x") (.var "y")) = "x y" ∧
    Plus.parsePlus (Plus.printPlus (.app (.var "x") (.var "y"))) = .ok (.var "xy") ∧
    (Term.var "xy") ≠ (Term.app (.var "x") (.var "y")) :=
  ⟨rfl, rfl, rfl, by decide⟩

/-- Counterexample to claim C8: variable names are not letters-only.  The
`plus` parser accepts `x1` as a single variable name containing a digit, and
`CorrectBetaReducer`'s alpha-renaming introduces the fresh name `v1`
(substituting `y` for `x` in `λy.x y` renames the binder to `v1`). -/
theorem C8_letters_only_counterexample :
    Plus.parsePlus "x1" = .ok (.var "x1") ∧
    lettersOnlyB "x1" = false ∧
    CV.csubst (.lam "y" (.app (.var "x") (.var "y"))) "x" (.var "y") 0 =
      (.lam "v1" (.app (.var "y") (.var "v1")), 1) ∧
    lettersOnlyB "v1" = false :=
  ⟨rfl, rfl, rfl, rfl⟩

/-- Claim C8 as amended: every variable name produced by the `plus` parser,
and every name in every snapshot of a `plus` reduction of a well-named term,
is a non-empty identifier that starts with a letter and continues with
letters, digits or underscores; both fresh-variable generators produce such
names (`a`–`z` then `x0, x1, …` for `BetaReducer`, `v1, v2, …` for
`CorrectBetaReducer`). -/
theorem C8_names_wellformed_amended :
    (∀ (input : String) (t : Term), Plus.parsePlus input = .ok t →
      goodTermB t = true) ∧
    (∀ (strat : Strategy) (t : Term) (ms : Nat), goodTermB t = true →
      ∀ pr ∈ (Plus.reduce strat t ms).trace, goodTermB pr.2 = true) ∧
    (∀ avoid : Finset String, goodNameB (Plus.freshVar avoid) = true) ∧
    (∀ k : Nat, goodNameB (CV.freshCV k).1 = true) :=
  ⟨Plus.parsePlus_good,
   fun strat t ms ht => Plus.reduce_trace_good strat t ms ht,
   Plus.freshVar_good,
   CV.freshCV_good⟩

/-- Witness for the amended C8 at the parse of `x` and a one-step reduction
trace. -/
theorem C8_names_wellformed_amended_witness :
    goodTermB (.var "x") = true ∧ goodTermB (.var "y") = true :=
  ⟨C8_names_wellformed_amended.1 "x" (.var "x") rfl,
   C8_names_wellformed_amended.2.1 .normalOrder (.var "y") 5 (by decide)
     (0, .var "y") (by decide)⟩

/-- Counterexample to claim C9: the table of
`BetaReducer._identify_combinator` does not contain the closed form of the
Flip/C combinator, and its S entry differs from the canonical print of the S
combinator, so both classify to `none` even though the claim says the table
contains them. -/
theorem C9_table_counterexample :
    Plus.identifyCombinator
      (.lam "f" (.lam "x" (.lam "y" (.app (.app (.var "f") (.var "y")) (.var "x")))))
        = none ∧
    Plus.identifyCombinator
      (.lam "x" (.lam "y" (.lam "z"
        (.app (.app (.var "x") (.var "z")) (.app (.var "y") (.var "z"))))))
        = none :=
  ⟨rfl, rfl⟩

/-- Claim C9 as amended: the classifier returns a name iff the space-stripped
canonical print of the term equals a space-stripped entry of its fixed
table; the table lists I, K, KI/False, S, B, Y and Church numerals 0–2 (no
Flip/C, and the S and Y patterns do not match those combinators' canonical
prints); matching is syntactic, so the alpha-variant `λa.a` of the identity
is not matched while `λx.x` is. -/
theorem C9_classifier_amended :
    (∀ t : Term, ((Plus.identifyCombinator t).isSome = true) ↔
      stripSpaces (Plus.printPlus t) ∈
        Plus.combinatorTable.map (fun pr => stripSpaces pr.1)) ∧
    Plus.identifyCombinator (.lam "x" (.var "x")) = some "I (Identity)" ∧
    Plus.identifyCombinator (.lam "a" (.var "a")) = none :=
  ⟨Plus.identifyCombinator_isSome, rfl, rfl⟩

/-- Claim C10: reduction never introduces a new free variable.  First
conjunct: the free variables of `substitute(M, x, N)` are contained in
`(free(M) \ x) ∪ free(N)`.  Second conjunct: every snapshot in the trace of
`BetaReducer.reduce` has free variables contained in those of the input. -/
theorem C10_no_new_free_variables :
    (∀ (M : Term) (x : String) (N : Term),
      Term.freeVars (Plus.substitute M x N) ⊆
        (Term.freeVars M \ {x}) ∪ Term.freeVars N) ∧
    (∀ (strat : Strategy) (t : Term) (ms : Nat),
      ∀ pr ∈ (Plus.reduce strat t ms).trace,
        Term.freeVars pr.2 ⊆ Term.freeVars t) :=
  ⟨Plus.substitute_freeVars_subset,
   fun strat t ms => Plus.reduce_trace_fv strat t ms⟩

/-- Witness for C10 on the one-step reduction of `(λx.x) y`. -/
theorem C10_no_new_free_variables_witness :
    Term.freeVars (.var "y") ⊆
      Term.freeVars (.app (.lam "x" (.var "x")) (.var "y")) :=
  C10_no_new_free_variables.2 .normalOrder
    (.app (.lam "x" (.var "x")) (.var "y")) 5 (1, .var "y") (by decide)
